import Mathlib

/-!
Verification of the task-tree model of the shine-and-done to-do widget.

The embedded code is `src/components/ui/to-do-card.tsx`; the notes update
operation (`updateItemNotes`) appears in the structurally identical copy of
the tree helpers in `src/components/ui/markdown-editor.tsx`.  Trees are
ordered forests of `TodoItem` nodes.  In the TypeScript source `children`,
`expanded` and `notes` are optional fields (`children?: TodoItem[]` etc.),
so they are embedded as `Option`s; an absent `children` field is distinct
from an explicitly empty children array, and the code's truthiness test
`if (item.children)` is a presence test (an empty array is truthy in JS).
`Date.now()` is modeled as an explicit `now : Nat` argument to the
operations that mint identifiers.  The unused `dueDate` field of the
markdown-editor variant (never read or written by any tree operation) is
omitted.
-/

/-- TodoItem, from the `TodoItem` interface of to-do-card.tsx (lines 24-30):
`id`, `text`, `done` are required, `children`, `expanded` (and, in the
markdown-editor variant, `notes`) are optional. -/
inductive TodoItem : Type where
  | mk (id : String) (text : String) (done : Bool)
       (children : Option (List TodoItem)) (expanded : Option Bool)
       (notes : Option String) : TodoItem

/-- Field accessor for `id`. -/
def TodoItem.id : TodoItem → String
  | .mk i _ _ _ _ _ => i

/-- Field accessor for `text`. -/
def TodoItem.text : TodoItem → String
  | .mk _ t _ _ _ _ => t

/-- Field accessor for `done`. -/
def TodoItem.done : TodoItem → Bool
  | .mk _ _ d _ _ _ => d

/-- Field accessor for `children`. -/
def TodoItem.children : TodoItem → Option (List TodoItem)
  | .mk _ _ _ c _ _ => c

/-- Field accessor for `expanded`. -/
def TodoItem.expanded : TodoItem → Option Bool
  | .mk _ _ _ _ e _ => e

/-- Field accessor for `notes`. -/
def TodoItem.notes : TodoItem → Option String
  | .mk _ _ _ _ _ n => n

/-- The literal initial seed tree `initialItems` of to-do-card.tsx
(lines 32-56).  Six root tasks; node "2" has children "2-1" (done) and
"2-2" (not done); node "5" is itself done and has the done child "5-1". -/
def initialItems : List TodoItem :=
  [ TodoItem.mk "1" "Review Calendar PR (React/TS)" false (some []) (some true) none,
    TodoItem.mk "2" "Implement authentication in the email provider" false
      (some [ TodoItem.mk "2-1" "Set up OAuth providers" true (some []) none none,
              TodoItem.mk "2-2" "Add session management" false (some []) none none ])
      (some true) none,
    TodoItem.mk "3" "Refactor components in the Tauri/React 19 app" false (some []) (some true) none,
    TodoItem.mk "4" "Test image downloads in Novon" false (some []) (some true) none,
    TodoItem.mk "5" "Organize CSS and layouts" true
      (some [ TodoItem.mk "5-1" "Clean up unused styles" true (some []) none none ])
      (some true) none,
    TodoItem.mk "6" "Draft the apps roadmap" false (some []) (some true) none ]

/-- findItemById (to-do-card.tsx lines 268-277): depth-first pre-order
search; returns the first node whose `id` matches, descending into
`children` only when the field is present. -/
def findItemById (items : List TodoItem) (targetId : String) : Option TodoItem :=
  match items with
  | [] => none
  | TodoItem.mk i t d c e n :: rest =>
    if i = targetId then some (TodoItem.mk i t d c e n)
    else
      match c with
      | some cs =>
        match findItemById cs targetId with
        | some found => some found
        | none => findItemById rest targetId
      | none => findItemById rest targetId

/-- deleteItemById (to-do-card.tsx lines 279-288): rebuilds the forest by
`reduce`, skipping every node whose `id` matches (dropping its whole
subtree) and re-assembling all other nodes with
`children: item.children ? deleteItemById(item.children, id) : []` — note
that an absent `children` field comes back as an explicit empty array. -/
def deleteItemById (items : List TodoItem) (targetId : String) : List TodoItem :=
  match items with
  | [] => []
  | TodoItem.mk i t d c e n :: rest =>
    if i = targetId then deleteItemById rest targetId
    else
      TodoItem.mk i t d
        (some (match c with
               | some cs => deleteItemById cs targetId
               | none => []))
        e n :: deleteItemById rest targetId

/-- toggleItemById (to-do-card.tsx lines 290-300): flips `done` on the
matched node (children untouched); otherwise rebuilds the node, recursing
into `children` when present. -/
def toggleItemById (items : List TodoItem) (targetId : String) : List TodoItem :=
  match items with
  | [] => []
  | TodoItem.mk i t d c e n :: rest =>
    (if i = targetId then TodoItem.mk i t (!d) c e n
     else
       match c with
       | some cs => TodoItem.mk i t d (some (toggleItemById cs targetId)) e n
       | none => TodoItem.mk i t d c e n) :: toggleItemById rest targetId

/-- toggleExpandById (to-do-card.tsx lines 302-312): sets
`expanded: !item.expanded` on the matched node (in JS `!undefined = true`,
so an absent flag toggles to an explicit `true`); otherwise recurses into
`children` when present. -/
def toggleExpandById (items : List TodoItem) (targetId : String) : List TodoItem :=
  match items with
  | [] => []
  | TodoItem.mk i t d c e n :: rest =>
    (if i = targetId then TodoItem.mk i t d c (some (!e.getD false)) n
     else
       match c with
       | some cs => TodoItem.mk i t d (some (toggleExpandById cs targetId)) e n
       | none => TodoItem.mk i t d c e n) :: toggleExpandById rest targetId

/-- The freshly minted child identifier `${parentId}-${Date.now()}` of
addChildById, with `Date.now()` modeled by `now`. -/
def newChildId (parentId : String) (now : Nat) : String :=
  parentId ++ "-" ++ toString now

/-- The new node built by addChildById (to-do-card.tsx lines 317-323):
`text: "New subtask"`, `done: false`, `children: []`, `expanded: true`
(the `notes` field is not set, hence absent). -/
def newChildItem (parentId : String) (now : Nat) : TodoItem :=
  TodoItem.mk (newChildId parentId now) "New subtask" false (some []) (some true) none

/-- addChildById (to-do-card.tsx lines 314-335): appends the new child to
`[...(item.children || []), newChild]` on the matched node and forces
`expanded: true` there; otherwise recurses into `children` when present. -/
def addChildById (items : List TodoItem) (parentId : String) (now : Nat) : List TodoItem :=
  match items with
  | [] => []
  | TodoItem.mk i t d c e n :: rest =>
    (if i = parentId then
       TodoItem.mk i t d (some (c.getD [] ++ [newChildItem parentId now])) (some true) n
     else
       match c with
       | some cs => TodoItem.mk i t d (some (addChildById cs parentId now)) e n
       | none => TodoItem.mk i t d c e n) :: addChildById rest parentId now

/-- updateItemNotes (markdown-editor.tsx lines 603-613): replaces `notes`
on the matched node; otherwise recurses into `children` when present. -/
def updateItemNotes (items : List TodoItem) (targetId : String) (s : String) : List TodoItem :=
  match items with
  | [] => []
  | TodoItem.mk i t d c e n :: rest =>
    (if i = targetId then TodoItem.mk i t d c e (some s)
     else
       match c with
       | some cs => TodoItem.mk i t d (some (updateItemNotes cs targetId s)) e n
       | none => TodoItem.mk i t d c e n) :: updateItemNotes rest targetId s

/-- handleAddTask (to-do-card.tsx lines 380-391): a no-op when the trimmed
text is empty, otherwise appends a fresh root task
`id: task-${Date.now()}` with the trimmed text, `done: false`,
`children: []`, `expanded: true`. -/
def handleAddTask (items : List TodoItem) (rawText : String) (now : Nat) : List TodoItem :=
  if rawText.trim = "" then items
  else
    items ++
      [TodoItem.mk ("task-" ++ toString now) rawText.trim false (some []) (some true) none]

/-- Modelled from @dnd-kit arrayMove: remove the element at index `i` and
re-insert it at index `j` of the shortened array
(`newArray.splice(to, 0, newArray.splice(from, 1)[0])`); its call site in
handleDragEnd only ever passes in-bounds indices. -/
def arrayMove (l : List TodoItem) (i j : Nat) : List TodoItem :=
  match l[i]? with
  | none => l
  | some x => (l.eraseIdx i).insertIdx j x

/-- The `items.findIndex((i) => i.id === target)` calls of handleDragEnd:
index of the first root node with the given id, `none` standing for the
JS sentinel `-1`. -/
def findIndexById (items : List TodoItem) (target : String) : Option Nat :=
  match items with
  | [] => none
  | x :: rest =>
    if x.id = target then some 0 else (findIndexById rest target).map (· + 1)

/-- handleDragEnd (to-do-card.tsx lines 345-362), restricted to its effect
on `items`: a drop on the delete zone deletes the dragged id; otherwise,
when a drop target exists and differs from the dragged id, both ids are
looked up in the root list only and, when both are found, the root list is
reordered with arrayMove; in every other case `items` is unchanged. -/
def handleDragEnd (items : List TodoItem) (activeId : String) (over : Option String) :
    List TodoItem :=
  match over with
  | none => items
  | some overId =>
    if overId = "delete-zone" then deleteItemById items activeId
    else if activeId = overId then items
    else
      match findIndexById items activeId, findIndexById items overId with
      | some oldIndex, some newIndex => arrayMove items oldIndex newIndex
      | _, _ => items

/-- The pair computed by countAllItems. -/
structure Counts where
  total : Nat
  done : Nat
  deriving DecidableEq

/-- countAllItems (to-do-card.tsx lines 395-409): recursive aggregate;
every node adds 1 to `total` and, when its `done` flag is set, 1 to
`done`; children are counted whenever the field is present. -/
def countAllItems (items : List TodoItem) : Counts :=
  match items with
  | [] => ⟨0, 0⟩
  | TodoItem.mk _ _ d c _ _ :: rest =>
    Counts.mk
      (1 + (match c with | some cs => (countAllItems cs).total | none => 0)
         + (countAllItems rest).total)
      ((if d then 1 else 0)
         + (match c with | some cs => (countAllItems cs).done | none => 0)
         + (countAllItems rest).done)

/-- allDone (to-do-card.tsx line 412):
`counts.total > 0 && counts.done === counts.total`. -/
def allDone (items : List TodoItem) : Bool :=
  decide (0 < (countAllItems items).total) &&
    decide ((countAllItems items).done = (countAllItems items).total)

mutual

/-- Pre-order list of the ids of a node and all of its descendants
(observer used to state the claims). -/
def idsOfItem : TodoItem → List String
  | TodoItem.mk i _ _ c _ _ =>
    i :: (match c with | some cs => idsOf cs | none => [])

/-- Pre-order list of all ids of a forest (observer used to state the
claims). -/
def idsOf : List TodoItem → List String
  | [] => []
  | x :: rest => idsOfItem x ++ idsOf rest

end

mutual

/-- Pre-order ids of the done nodes of a node's subtree (observer). -/
def doneIdsOfItem : TodoItem → List String
  | TodoItem.mk i _ d c _ _ =>
    (if d then [i] else []) ++ (match c with | some cs => doneIds cs | none => [])

/-- Pre-order ids of the done nodes of a forest (observer). -/
def doneIds : List TodoItem → List String
  | [] => []
  | x :: rest => doneIdsOfItem x ++ doneIds rest

end

mutual

/-- Pre-order ids of the nodes of a node's subtree whose `children` field
is absent (observer). -/
def absentIdsOfItem : TodoItem → List String
  | TodoItem.mk i _ _ none _ _ => [i]
  | TodoItem.mk _ _ _ (some cs) _ _ => absentIds cs

/-- Pre-order ids of the nodes of a forest whose `children` field is
absent (observer). -/
def absentIds : List TodoItem → List String
  | [] => []
  | x :: rest => absentIdsOfItem x ++ absentIds rest

end

/-- Whether every node of the forest carries an explicit `children`
sequence (observer). -/
def allChildrenSome (items : List TodoItem) : Bool :=
  match items with
  | [] => true
  | TodoItem.mk _ _ _ c _ _ :: rest =>
    (match c with | some cs => allChildrenSome cs | none => false) && allChildrenSome rest

/-- The forest with every absent `children` field replaced by an explicit
empty sequence, at every depth (characterizes deleteItemById's
normalization of untouched nodes). -/
def normalizeChildren (items : List TodoItem) : List TodoItem :=
  match items with
  | [] => []
  | TodoItem.mk i t d c e n :: rest =>
    TodoItem.mk i t d
      (some (match c with | some cs => normalizeChildren cs | none => []))
      e n :: normalizeChildren rest

/-- Modelled from the spec (`deleteNode` "removes the matched node and its
entire subtree"): pure subtree removal without deleteItemById's children
normalization, used to factor deleteItemById as normalization after
removal. -/
def removeAllById (items : List TodoItem) (targetId : String) : List TodoItem :=
  match items with
  | [] => []
  | TodoItem.mk i t d c e n :: rest =>
    if i = targetId then removeAllById rest targetId
    else
      TodoItem.mk i t d
        (match c with | some cs => some (removeAllById cs targetId) | none => none)
        e n :: removeAllById rest targetId

/-- Whether an id lies outside the subtree rooted at the given node
(observer used to state the deletion claim). -/
def outsideSubtree (found : TodoItem) (j : String) : Bool :=
  !decide (j ∈ idsOfItem found)

/-- Modelled from the spec ("every node in the tree has `done=true`"):
the ALL_DONE predicate stated directly over the nodes. -/
def allNodesDone (items : List TodoItem) : Bool :=
  match items with
  | [] => true
  | TodoItem.mk _ _ d c _ _ :: rest =>
    d && (match c with | some cs => allNodesDone cs | none => true) && allNodesDone rest

/-- Generic visit-and-rebuild primitive shared by the four single-node
update operations: apply `f` to every node whose id matches (children of a
matched node are not visited), rebuild other nodes, descending into
`children` only when the field is present. -/
def mapById (f : TodoItem → TodoItem) (items : List TodoItem) (targetId : String) :
    List TodoItem :=
  match items with
  | [] => []
  | TodoItem.mk i t d c e n :: rest =>
    (if i = targetId then f (TodoItem.mk i t d c e n)
     else
       match c with
       | some cs => TodoItem.mk i t d (some (mapById f cs targetId)) e n
       | none => TodoItem.mk i t d c e n) :: mapById f rest targetId

/-- Modelled from the spec's frame conditions ("leaves every other node
byte-for-byte identical"): rewrite only the first node (in depth-first
pre-order) whose id matches, leaving every node off the path to it
untouched; `none` when the id does not occur. -/
def replaceFirstById (items : List TodoItem) (targetId : String) (f : TodoItem → TodoItem) :
    Option (List TodoItem) :=
  match items with
  | [] => none
  | TodoItem.mk i t d c e n :: rest =>
    if i = targetId then some (f (TodoItem.mk i t d c e n) :: rest)
    else
      match c with
      | some cs =>
        match replaceFirstById cs targetId f with
        | some cs' => some (TodoItem.mk i t d (some cs') e n :: rest)
        | none =>
          (replaceFirstById rest targetId f).map (TodoItem.mk i t d c e n :: ·)
      | none =>
        (replaceFirstById rest targetId f).map (TodoItem.mk i t d c e n :: ·)

/-- The single-node rewrite applied by toggleItemById at the matched
node. -/
def flipDone : TodoItem → TodoItem
  | TodoItem.mk i t d c e n => TodoItem.mk i t (!d) c e n

/-- The single-node rewrite applied by addChildById at the matched node:
append the fresh child and force `expanded: true`. -/
def addChildRewrite (now : Nat) : TodoItem → TodoItem
  | TodoItem.mk i t d c _ n =>
    TodoItem.mk i t d (some (c.getD [] ++ [newChildItem i now])) (some true) n

/-- The single-node rewrite applied by toggleExpandById at the matched
node. -/
def flipExpanded : TodoItem → TodoItem
  | TodoItem.mk i t d c e n => TodoItem.mk i t d c (some (!e.getD false)) n

/-- The single-node rewrite applied by updateItemNotes at the matched
node. -/
def setNotesRewrite (s : String) : TodoItem → TodoItem
  | TodoItem.mk i t d c e _ => TodoItem.mk i t d c e (some s)

/-- The trees reachable from the initial seed by the widget's operations
(each `now` argument stands for the `Date.now()` value observed at that
step; `reset` restores the seed). -/
inductive Reachable : List TodoItem → Prop where
  | seed : Reachable initialItems
  | toggle {T} (i : String) : Reachable T → Reachable (toggleItemById T i)
  | expand {T} (i : String) : Reachable T → Reachable (toggleExpandById T i)
  | addChild {T} (p : String) (now : Nat) : Reachable T → Reachable (addChildById T p now)
  | addTask {T} (txt : String) (now : Nat) : Reachable T → Reachable (handleAddTask T txt now)
  | delete {T} (i : String) : Reachable T → Reachable (deleteItemById T i)
  | drag {T} (a : String) (o : Option String) : Reachable T → Reachable (handleDragEnd T a o)
  | setNotes {T} (i s : String) : Reachable T → Reachable (updateItemNotes T i s)
  | reset {T} : Reachable T → Reachable initialItems

/-- Induction principle for forests of TodoItems, splitting the head
node's optional children field. -/
theorem forest_ind (P : List TodoItem → Prop) (h0 : P [])
    (hnone : ∀ (i t : String) (d : Bool) (e : Option Bool) (n : Option String)
        (rest : List TodoItem), P rest → P (TodoItem.mk i t d none e n :: rest))
    (hsome : ∀ (i t : String) (d : Bool) (cs : List TodoItem) (e : Option Bool)
        (n : Option String) (rest : List TodoItem),
        P cs → P rest → P (TodoItem.mk i t d (some cs) e n :: rest)) :
    ∀ l, P l
  | [] => h0
  | TodoItem.mk i t d none e n :: rest =>
    hnone i t d e n rest (forest_ind P h0 hnone hsome rest)
  | TodoItem.mk i t d (some cs) e n :: rest =>
    hsome i t d cs e n rest (forest_ind P h0 hnone hsome cs)
      (forest_ind P h0 hnone hsome rest)

/-- Pre-order ids distribute over concatenation of forests. -/
theorem idsOf_append (l₁ l₂ : List TodoItem) : idsOf (l₁ ++ l₂) = idsOf l₁ ++ idsOf l₂ := by
  induction l₁ with
  | nil => simp [idsOf]
  | cons x rest ih => simp [idsOf, ih]

/-- toggleItemById is the generic visit-and-rebuild with the done-flip
rewrite. -/
theorem toggleItemById_eq_mapById (T : List TodoItem) (targetId : String) :
    toggleItemById T targetId = mapById flipDone T targetId := by
  induction T using forest_ind with
  | h0 => simp [toggleItemById, mapById]
  | hnone i t d e n rest ihr =>
    simp only [toggleItemById, mapById, flipDone, ihr]
  | hsome i t d cs e n rest ihc ihr =>
    simp only [toggleItemById, mapById, flipDone, ihc, ihr]

/-- toggleExpandById is the generic visit-and-rebuild with the
expanded-flip rewrite. -/
theorem toggleExpandById_eq_mapById (T : List TodoItem) (targetId : String) :
    toggleExpandById T targetId = mapById flipExpanded T targetId := by
  induction T using forest_ind with
  | h0 => simp [toggleExpandById, mapById]
  | hnone i t d e n rest ihr =>
    simp only [toggleExpandById, mapById, flipExpanded, ihr]
  | hsome i t d cs e n rest ihc ihr =>
    simp only [toggleExpandById, mapById, flipExpanded, ihc, ihr]

/-- updateItemNotes is the generic visit-and-rebuild with the notes
rewrite. -/
theorem updateItemNotes_eq_mapById (T : List TodoItem) (targetId s : String) :
    updateItemNotes T targetId s = mapById (setNotesRewrite s) T targetId := by
  induction T using forest_ind with
  | h0 => simp [updateItemNotes, mapById]
  | hnone i t d e n rest ihr =>
    simp only [updateItemNotes, mapById, setNotesRewrite, ihr]
  | hsome i t d cs e n rest ihc ihr =>
    simp only [updateItemNotes, mapById, setNotesRewrite, ihc, ihr]

/-- addChildById is the generic visit-and-rebuild with the child-append
rewrite. -/
theorem addChildById_eq_mapById (T : List TodoItem) (parentId : String) (now : Nat) :
    addChildById T parentId now = mapById (addChildRewrite now) T parentId := by
  induction T using forest_ind with
  | h0 => simp [addChildById, mapById]
  | hnone i t d e n rest ihr =>
    simp only [addChildById, mapById, addChildRewrite, ihr]
    by_cases h : i = parentId
    · subst h; simp
    · simp [h]
  | hsome i t d cs e n rest ihc ihr =>
    simp only [addChildById, mapById, addChildRewrite, ihc, ihr]
    by_cases h : i = parentId
    · subst h; simp
    · simp [h]

/-- The generic visit-and-rebuild is the identity when the target id does
not occur in the forest. -/
theorem mapById_noop (f : TodoItem → TodoItem) (T : List TodoItem) (targetId : String)
    (h : targetId ∉ idsOf T) : mapById f T targetId = T := by
  induction T using forest_ind with
  | h0 => simp [mapById]
  | hnone i t d e n rest ihr =>
    simp only [idsOf, idsOfItem, List.cons_append, List.nil_append, List.mem_cons] at h
    push_neg at h
    simp only [mapById]
    rw [if_neg (fun hh => h.1 hh.symm), ihr h.2]
  | hsome i t d cs e n rest ihc ihr =>
    simp only [idsOf, idsOfItem, List.cons_append, List.mem_cons, List.mem_append] at h
    push_neg at h
    obtain ⟨hne, hcs, hrest⟩ := h
    simp only [mapById]
    rw [if_neg (fun hh => hne hh.symm), ihc hcs, ihr hrest]

/-- deleteItemById factors as pure subtree removal followed by
normalization of every remaining absent children field. -/
theorem deleteItemById_eq_normalize_removeAll (T : List TodoItem) (targetId : String) :
    deleteItemById T targetId = normalizeChildren (removeAllById T targetId) := by
  induction T using forest_ind with
  | h0 => simp [deleteItemById, removeAllById, normalizeChildren]
  | hnone i t d e n rest ihr =>
    by_cases h : i = targetId
    · simp only [deleteItemById, removeAllById, if_pos h, ihr]
    · simp only [deleteItemById, removeAllById, if_neg h, normalizeChildren, ihr]
  | hsome i t d cs e n rest ihc ihr =>
    by_cases h : i = targetId
    · simp only [deleteItemById, removeAllById, if_pos h, ihr]
    · simp only [deleteItemById, removeAllById, if_neg h, normalizeChildren, ihc, ihr]

/-- Pure subtree removal is the identity when the target id does not
occur. -/
theorem removeAllById_noop (T : List TodoItem) (targetId : String)
    (h : targetId ∉ idsOf T) : removeAllById T targetId = T := by
  induction T using forest_ind with
  | h0 => simp [removeAllById]
  | hnone i t d e n rest ihr =>
    simp only [idsOf, idsOfItem, List.cons_append, List.nil_append, List.mem_cons] at h
    push_neg at h
    simp only [removeAllById]
    rw [if_neg (fun hh => h.1 hh.symm), ihr h.2]
  | hsome i t d cs e n rest ihc ihr =>
    simp only [idsOf, idsOfItem, List.cons_append, List.mem_cons, List.mem_append] at h
    push_neg at h
    obtain ⟨hne, hcs, hrest⟩ := h
    simp only [removeAllById]
    rw [if_neg (fun hh => hne hh.symm), ihc hcs, ihr hrest]

/-- Normalizing absent children fields does not change the pre-order id
list. -/
theorem idsOf_normalizeChildren (T : List TodoItem) :
    idsOf (normalizeChildren T) = idsOf T := by
  induction T using forest_ind with
  | h0 => simp [normalizeChildren, idsOf]
  | hnone i t d e n rest ihr =>
    simp [normalizeChildren, idsOf, idsOfItem, ihr]
  | hsome i t d cs e n rest ihc ihr =>
    simp [normalizeChildren, idsOf, idsOfItem, ihc, ihr]

/-- After normalization every node carries an explicit children
sequence. -/
theorem allChildrenSome_normalizeChildren (T : List TodoItem) :
    allChildrenSome (normalizeChildren T) = true := by
  induction T using forest_ind with
  | h0 => simp [normalizeChildren, allChildrenSome]
  | hnone i t d e n rest ihr =>
    simp [normalizeChildren, allChildrenSome, ihr]
  | hsome i t d cs e n rest ihc ihr =>
    simp [normalizeChildren, allChildrenSome, ihc, ihr]

/-- Normalization is the identity on forests whose nodes all carry an
explicit children sequence. -/
theorem normalizeChildren_eq_self (T : List TodoItem)
    (h : allChildrenSome T = true) : normalizeChildren T = T := by
  induction T using forest_ind with
  | h0 => simp [normalizeChildren]
  | hnone i t d e n rest ihr =>
    simp [allChildrenSome] at h
  | hsome i t d cs e n rest ihc ihr =>
    simp only [allChildrenSome, Bool.and_eq_true] at h
    simp [normalizeChildren, ihc h.1, ihr h.2]

/-- Pure subtree removal removes every occurrence of the target id. -/
theorem not_mem_idsOf_removeAllById (T : List TodoItem) (targetId : String) :
    targetId ∉ idsOf (removeAllById T targetId) := by
  induction T using forest_ind with
  | h0 => simp [removeAllById, idsOf]
  | hnone i t d e n rest ihr =>
    by_cases h : i = targetId
    · simpa [removeAllById, if_pos h] using ihr
    · simp [removeAllById, if_neg h, idsOf, idsOfItem]
      exact ⟨fun hh => h hh.symm, ihr⟩
  | hsome i t d cs e n rest ihc ihr =>
    by_cases h : i = targetId
    · simpa [removeAllById, if_pos h] using ihr
    · simp [removeAllById, if_neg h, idsOf, idsOfItem]
      exact ⟨fun hh => h hh.symm, ihc, ihr⟩

/-- The id list after pure subtree removal is a sublist of the original
id list. -/
theorem idsOf_removeAllById_sublist (T : List TodoItem) (targetId : String) :
    (idsOf (removeAllById T targetId)).Sublist (idsOf T) := by
  induction T using forest_ind with
  | h0 => simp [removeAllById, idsOf]
  | hnone i t d e n rest ihr =>
    by_cases h : i = targetId
    · simp only [removeAllById, if_pos h, idsOf, idsOfItem]
      exact ihr.trans (List.sublist_append_right _ _)
    · simp only [removeAllById, if_neg h, idsOf, idsOfItem, List.cons_append,
        List.nil_append]
      exact ihr.cons₂ i
  | hsome i t d cs e n rest ihc ihr =>
    by_cases h : i = targetId
    · simp only [removeAllById, if_pos h, idsOf, idsOfItem]
      exact ihr.trans (List.sublist_append_right _ _)
    · simp only [removeAllById, if_neg h, idsOf, idsOfItem, List.cons_append]
      exact (ihc.append ihr).cons₂ i

/-- deleteItemById on a missing id only normalizes absent children
fields. -/
theorem deleteItemById_of_missing (T : List TodoItem) (targetId : String)
    (h : targetId ∉ idsOf T) : deleteItemById T targetId = normalizeChildren T := by
  rw [deleteItemById_eq_normalize_removeAll, removeAllById_noop T targetId h]

/-- deleteItemById removes every occurrence of the target id. -/
theorem not_mem_idsOf_deleteItemById (T : List TodoItem) (targetId : String) :
    targetId ∉ idsOf (deleteItemById T targetId) := by
  rw [deleteItemById_eq_normalize_removeAll, idsOf_normalizeChildren]
  exact not_mem_idsOf_removeAllById T targetId

/-- Every node of a deleteItemById result carries an explicit children
sequence. -/
theorem allChildrenSome_deleteItemById (T : List TodoItem) (targetId : String) :
    allChildrenSome (deleteItemById T targetId) = true := by
  rw [deleteItemById_eq_normalize_removeAll]
  exact allChildrenSome_normalizeChildren _

/-- deleteItemById on a missing id preserves the pre-order id list. -/
theorem idsOf_deleteItemById_of_missing (T : List TodoItem) (targetId : String)
    (h : targetId ∉ idsOf T) : idsOf (deleteItemById T targetId) = idsOf T := by
  rw [deleteItemById_of_missing T targetId h, idsOf_normalizeChildren]

/-- Decomposition of a no-duplicates hypothesis on an id list of the
shape produced by a forest head with children. -/
theorem nodup_cons_parts {i : String} {l₁ l₂ : List String}
    (h : List.Nodup ((i :: l₁) ++ l₂)) :
    i ∉ l₁ ∧ i ∉ l₂ ∧ l₁.Nodup ∧ l₂.Nodup ∧ ∀ x ∈ l₁, x ∉ l₂ := by
  rw [List.cons_append, List.nodup_cons, List.nodup_append] at h
  obtain ⟨hi, h₁, h₂, hd⟩ := h
  rw [List.mem_append] at hi
  push_neg at hi
  exact ⟨hi.1, hi.2, h₁, h₂, fun x hx => List.disjoint_left.mp hd hx⟩

/-- findItemById misses exactly when the id does not occur in the
pre-order id list. -/
theorem findItemById_eq_none_iff (T : List TodoItem) (targetId : String) :
    findItemById T targetId = none ↔ targetId ∉ idsOf T := by
  induction T using forest_ind with
  | h0 => simp [findItemById, idsOf]
  | hnone i t d e n rest ihr =>
    by_cases h : i = targetId
    · subst h; simp [findItemById, idsOf, idsOfItem]
    · have h' : targetId ≠ i := fun hh => h hh.symm
      simp [findItemById, h, idsOf, idsOfItem, ihr, h']
  | hsome i t d cs e n rest ihc ihr =>
    by_cases h : i = targetId
    · subst h; simp [findItemById, idsOf, idsOfItem]
    · have h' : targetId ≠ i := fun hh => h hh.symm
      cases hf : findItemById cs targetId with
      | some f =>
        have hmem : targetId ∈ idsOf cs := by
          by_contra hc
          rw [ihc.mpr hc] at hf
          cases hf
        simp [findItemById, h, hf, idsOf, idsOfItem, h', hmem]
      | none =>
        have hcs : targetId ∉ idsOf cs := ihc.mp hf
        simp [findItemById, h, hf, idsOf, idsOfItem, h', hcs, ihr]

/-- A node returned by findItemById has the searched id, and its subtree
ids all occur in the forest's id list. -/
theorem findItemById_some_spec (T : List TodoItem) (targetId : String) (found : TodoItem)
    (h : findItemById T targetId = some found) :
    found.id = targetId ∧ ∀ x ∈ idsOfItem found, x ∈ idsOf T := by
  induction T using forest_ind generalizing found with
  | h0 => simp [findItemById] at h
  | hnone i t d e n rest ihr =>
    simp only [findItemById] at h
    by_cases hi : i = targetId
    · rw [if_pos hi] at h
      cases h
      refine ⟨hi ▸ rfl, ?_⟩
      intro x hx
      simp only [idsOf, idsOfItem, List.mem_cons, List.cons_append, List.nil_append] at hx ⊢
      exact Or.inl (by simpa [idsOfItem] using hx)
    · rw [if_neg hi] at h
      obtain ⟨hid, hsub⟩ := ihr found h
      refine ⟨hid, fun x hx => ?_⟩
      simp only [idsOf]
      exact List.mem_append_right _ (hsub x hx)
  | hsome i t d cs e n rest ihc ihr =>
    simp only [findItemById] at h
    by_cases hi : i = targetId
    · rw [if_pos hi] at h
      cases h
      refine ⟨hi ▸ rfl, ?_⟩
      intro x hx
      simp only [idsOf]
      exact List.mem_append_left _ hx
    · rw [if_neg hi] at h
      cases hf : findItemById cs targetId with
      | some f =>
        rw [hf] at h
        cases h
        obtain ⟨hid, hsub⟩ := ihc found hf
        refine ⟨hid, fun x hx => ?_⟩
        simp only [idsOf, idsOfItem, List.cons_append]
        exact List.mem_cons_of_mem _ (List.mem_append_left _ (hsub x hx))
      | none =>
        rw [hf] at h
        obtain ⟨hid, hsub⟩ := ihr found h
        refine ⟨hid, fun x hx => ?_⟩
        simp only [idsOf]
        exact List.mem_append_right _ (hsub x hx)

/-- replaceFirstById misses exactly when the id does not occur in the
pre-order id list. -/
theorem replaceFirstById_eq_none_iff (T : List TodoItem) (targetId : String)
    (f : TodoItem → TodoItem) :
    replaceFirstById T targetId f = none ↔ targetId ∉ idsOf T := by
  induction T using forest_ind with
  | h0 => simp [replaceFirstById, idsOf]
  | hnone i t d e n rest ihr =>
    by_cases h : i = targetId
    · subst h; simp [replaceFirstById, idsOf, idsOfItem]
    · have h' : targetId ≠ i := fun hh => h hh.symm
      simp [replaceFirstById, h, idsOf, idsOfItem, ihr, h']
  | hsome i t d cs e n rest ihc ihr =>
    by_cases h : i = targetId
    · subst h; simp [replaceFirstById, idsOf, idsOfItem]
    · have h' : targetId ≠ i := fun hh => h hh.symm
      cases hf : replaceFirstById cs targetId f with
      | some cs' =>
        have hmem : targetId ∈ idsOf cs := by
          by_contra hc
          rw [ihc.mpr hc] at hf
          cases hf
        simp [replaceFirstById, h, hf, idsOf, idsOfItem, h', hmem]
      | none =>
        have hcs : targetId ∉ idsOf cs := ihc.mp hf
        simp [replaceFirstById, h, hf, idsOf, idsOfItem, h', hcs, ihr]

/-- On a forest with globally unique ids, the generic visit-and-rebuild
agrees with the first-occurrence rewrite that leaves every node off the
path to the match untouched. -/
theorem mapById_eq_replaceFirst (f : TodoItem → TodoItem) (T : List TodoItem)
    (targetId : String) (h : (idsOf T).Nodup) :
    mapById f T targetId = (replaceFirstById T targetId f).getD T := by
  induction T using forest_ind with
  | h0 => simp [mapById, replaceFirstById]
  | hnone i t d e n rest ihr =>
    simp only [idsOf, idsOfItem, List.cons_append, List.nil_append] at h
    rw [List.nodup_cons] at h
    obtain ⟨hi, hrest⟩ := h
    by_cases hit : i = targetId
    · subst hit
      simp [mapById, replaceFirstById, mapById_noop f rest i hi]
    · simp only [mapById, replaceFirstById, if_neg hit]
      rw [ihr hrest]
      cases hr : replaceFirstById rest targetId f with
      | none => simp
      | some R => simp
  | hsome i t d cs e n rest ihc ihr =>
    simp only [idsOf, idsOfItem] at h
    obtain ⟨hics, hirest, hcs, hrest, hdisj⟩ := nodup_cons_parts h
    by_cases hit : i = targetId
    · subst hit
      simp [mapById, replaceFirstById, mapById_noop f rest i hirest]
    · simp only [mapById, replaceFirstById, if_neg hit]
      by_cases hm : targetId ∈ idsOf cs
      · cases hf : replaceFirstById cs targetId f with
        | none => exact absurd ((replaceFirstById_eq_none_iff cs targetId f).mp hf) (by simpa using hm)
        | some cs' =>
          have h1 : mapById f cs targetId = cs' := by rw [ihc hcs, hf]; simp
          have h2 : mapById f rest targetId = rest :=
            mapById_noop f rest targetId (fun hx => (hdisj targetId hm) hx)
          simp [h1, h2]
      · have hf : replaceFirstById cs targetId f = none :=
          (replaceFirstById_eq_none_iff cs targetId f).mpr hm
        have h1 : mapById f cs targetId = cs := mapById_noop f cs targetId hm
        rw [hf, h1, ihr hrest]
        cases hr : replaceFirstById rest targetId f with
        | none => simp
        | some R => simp

/-- The done-flip rewrite does not change subtree ids. -/
theorem idsOfItem_flipDone (x : TodoItem) : idsOfItem (flipDone x) = idsOfItem x := by
  cases x with
  | mk i t d c e n => cases c <;> simp [flipDone, idsOfItem]

/-- The expanded-flip rewrite does not change subtree ids. -/
theorem idsOfItem_flipExpanded (x : TodoItem) :
    idsOfItem (flipExpanded x) = idsOfItem x := by
  cases x with
  | mk i t d c e n => cases c <;> simp [flipExpanded, idsOfItem]

/-- The notes rewrite does not change subtree ids. -/
theorem idsOfItem_setNotesRewrite (s : String) (x : TodoItem) :
    idsOfItem (setNotesRewrite s x) = idsOfItem x := by
  cases x with
  | mk i t d c e n => cases c <;> simp [setNotesRewrite, idsOfItem]

/-- The generic visit-and-rebuild preserves the pre-order id list whenever
its node rewrite does. -/
theorem idsOf_mapById (f : TodoItem → TodoItem)
    (hf : ∀ x, idsOfItem (f x) = idsOfItem x) (T : List TodoItem) (targetId : String) :
    idsOf (mapById f T targetId) = idsOf T := by
  induction T using forest_ind with
  | h0 => simp [mapById, idsOf]
  | hnone i t d e n rest ihr =>
    by_cases h : i = targetId
    · simp [mapById, if_pos h, idsOf, hf, ihr]
    · simp [mapById, if_neg h, idsOf, ihr]
  | hsome i t d cs e n rest ihc ihr =>
    by_cases h : i = targetId
    · simp [mapById, if_pos h, idsOf, hf, ihr]
    · simp [mapById, if_neg h, idsOf, idsOfItem, ihc, ihr]

/-- toggleItemById preserves the pre-order id list. -/
theorem idsOf_toggleItemById (T : List TodoItem) (targetId : String) :
    idsOf (toggleItemById T targetId) = idsOf T := by
  rw [toggleItemById_eq_mapById]
  exact idsOf_mapById _ idsOfItem_flipDone T targetId

/-- toggleExpandById preserves the pre-order id list. -/
theorem idsOf_toggleExpandById (T : List TodoItem) (targetId : String) :
    idsOf (toggleExpandById T targetId) = idsOf T := by
  rw [toggleExpandById_eq_mapById]
  exact idsOf_mapById _ idsOfItem_flipExpanded T targetId

/-- updateItemNotes preserves the pre-order id list. -/
theorem idsOf_updateItemNotes (T : List TodoItem) (targetId s : String) :
    idsOf (updateItemNotes T targetId s) = idsOf T := by
  rw [updateItemNotes_eq_mapById]
  exact idsOf_mapById _ (idsOfItem_setNotesRewrite s) T targetId

/-- Toggling the same id twice restores the original forest, with no
hypothesis on the id at all. -/
theorem toggleItemById_toggleItemById (T : List TodoItem) (targetId : String) :
    toggleItemById (toggleItemById T targetId) targetId = T := by
  induction T using forest_ind with
  | h0 => simp [toggleItemById]
  | hnone i t d e n rest ihr =>
    by_cases h : i = targetId
    · simp [toggleItemById, if_pos h, ihr]
    · simp [toggleItemById, if_neg h, ihr]
  | hsome i t d cs e n rest ihc ihr =>
    by_cases h : i = targetId
    · simp [toggleItemById, if_pos h, ihr]
    · simp [toggleItemById, if_neg h, ihc, ihr]

/-- The done count never exceeds the total count. -/
theorem countAllItems_done_le_total (T : List TodoItem) :
    (countAllItems T).done ≤ (countAllItems T).total := by
  induction T using forest_ind with
  | h0 => simp [countAllItems]
  | hnone i t d e n rest ihr =>
    cases d <;> simp [countAllItems] <;> omega
  | hsome i t d cs e n rest ihc ihr =>
    cases d <;> simp [countAllItems] <;> omega

/-- Every node is done exactly when the done count equals the total
count. -/
theorem allNodesDone_iff_counts (T : List TodoItem) :
    allNodesDone T = true ↔ (countAllItems T).done = (countAllItems T).total := by
  induction T using forest_ind with
  | h0 => simp [allNodesDone, countAllItems]
  | hnone i t d e n rest ihr =>
    have hr := countAllItems_done_le_total rest
    cases d with
    | false => simp [allNodesDone, countAllItems, ihr]; omega
    | true => simp [allNodesDone, countAllItems, ihr]
  | hsome i t d cs e n rest ihc ihr =>
    have hr := countAllItems_done_le_total rest
    have hc := countAllItems_done_le_total cs
    cases d with
    | false => simp [allNodesDone, countAllItems, ihc, ihr]; omega
    | true => simp [allNodesDone, countAllItems, ihc, ihr]; omega

/-- A nonempty forest has a positive total count. -/
theorem countAllItems_total_pos (T : List TodoItem) (h : T ≠ []) :
    0 < (countAllItems T).total := by
  cases T with
  | nil => exact absurd rfl h
  | cons x rest =>
    cases x with
    | mk i t d c e n =>
      cases c with
      | none => simp [countAllItems]
      | some cs => simp [countAllItems]

/-- Absent-children ids distribute over concatenation of forests. -/
theorem absentIds_append (l₁ l₂ : List TodoItem) :
    absentIds (l₁ ++ l₂) = absentIds l₁ ++ absentIds l₂ := by
  induction l₁ with
  | nil => simp [absentIds]
  | cons x rest ih => simp [absentIds, ih]

/-- Every id with an absent children field is an id of the forest. -/
theorem absentIds_subset_idsOf (T : List TodoItem) :
    ∀ x ∈ absentIds T, x ∈ idsOf T := by
  induction T using forest_ind with
  | h0 => simp [absentIds, idsOf]
  | hnone i t d e n rest ihr =>
    intro x hx
    simp only [absentIds, absentIdsOfItem, idsOf, idsOfItem, List.cons_append,
      List.nil_append, List.mem_cons] at hx ⊢
    rcases hx with h | h
    · exact Or.inl h
    · exact Or.inr (ihr x h)
  | hsome i t d cs e n rest ihc ihr =>
    intro x hx
    simp only [absentIds, absentIdsOfItem, idsOf, idsOfItem, List.cons_append,
      List.mem_cons, List.mem_append] at hx ⊢
    rcases hx with h | h
    · exact Or.inr (Or.inl (ihc x h))
    · exact Or.inr (Or.inr (ihr x h))

/-- The generic visit-and-rebuild preserves the absent-children id list
whenever its node rewrite does. -/
theorem absentIds_mapById (f : TodoItem → TodoItem)
    (hf : ∀ x, absentIdsOfItem (f x) = absentIdsOfItem x)
    (T : List TodoItem) (targetId : String) :
    absentIds (mapById f T targetId) = absentIds T := by
  induction T using forest_ind with
  | h0 => simp [mapById, absentIds]
  | hnone i t d e n rest ihr =>
    by_cases h : i = targetId
    · simp [mapById, if_pos h, absentIds, hf, ihr]
    · simp [mapById, if_neg h, absentIds, ihr]
  | hsome i t d cs e n rest ihc ihr =>
    by_cases h : i = targetId
    · simp [mapById, if_pos h, absentIds, hf, ihr]
    · simp [mapById, if_neg h, absentIds, absentIdsOfItem, ihc, ihr]

/-- The done-flip rewrite does not change absent-children ids. -/
theorem absentIdsOfItem_flipDone (x : TodoItem) :
    absentIdsOfItem (flipDone x) = absentIdsOfItem x := by
  cases x with
  | mk i t d c e n => cases c <;> simp [flipDone, absentIdsOfItem]

/-- The expanded-flip rewrite does not change absent-children ids. -/
theorem absentIdsOfItem_flipExpanded (x : TodoItem) :
    absentIdsOfItem (flipExpanded x) = absentIdsOfItem x := by
  cases x with
  | mk i t d c e n => cases c <;> simp [flipExpanded, absentIdsOfItem]

/-- The notes rewrite does not change absent-children ids. -/
theorem absentIdsOfItem_setNotesRewrite (s : String) (x : TodoItem) :
    absentIdsOfItem (setNotesRewrite s x) = absentIdsOfItem x := by
  cases x with
  | mk i t d c e n => cases c <;> simp [setNotesRewrite, absentIdsOfItem]

/-- On a forest with unique ids, addChildById removes exactly the target
id from the absent-children id list: the target's children field becomes
explicit and every other node's children presence is untouched. -/
theorem absentIds_addChildById (T : List TodoItem) (parentId : String) (now : Nat)
    (h : (idsOf T).Nodup) :
    absentIds (addChildById T parentId now)
      = (absentIds T).filter (fun j => !decide (j = parentId)) := by
  induction T using forest_ind with
  | h0 => simp [addChildById, absentIds]
  | hnone i t d e n rest ihr =>
    simp only [idsOf, idsOfItem, List.cons_append, List.nil_append,
      List.nodup_cons] at h
    obtain ⟨hi, hrest⟩ := h
    by_cases hip : i = parentId
    · subst hip
      have hnoop : addChildById rest i now = rest := by
        rw [addChildById_eq_mapById]
        exact mapById_noop _ rest i hi
      have hkeep : (absentIds rest).filter (fun j => !decide (j = i)) = absentIds rest := by
        rw [List.filter_eq_self]
        intro a ha
        simp only [Bool.not_eq_true', decide_eq_false_iff_not]
        exact fun hh => hi (hh ▸ absentIds_subset_idsOf rest a ha)
      simp [addChildById, absentIds, absentIdsOfItem, hnoop, hkeep, newChildItem,
        absentIds_append]
    · simp only [addChildById, if_neg hip, absentIds, absentIdsOfItem, ihr hrest,
        List.filter_append]
      simp [List.filter_cons, hip]
  | hsome i t d cs e n rest ihc ihr =>
    simp only [idsOf, idsOfItem] at h
    obtain ⟨hics, hirest, hcs, hrest, hdisj⟩ := nodup_cons_parts h
    by_cases hip : i = parentId
    · subst hip
      have hnoop : addChildById rest i now = rest := by
        rw [addChildById_eq_mapById]
        exact mapById_noop _ rest i hirest
      have hkeep₁ : (absentIds cs).filter (fun j => !decide (j = i)) = absentIds cs := by
        rw [List.filter_eq_self]
        intro a ha
        simp only [Bool.not_eq_true', decide_eq_false_iff_not]
        exact fun hh => hics (hh ▸ absentIds_subset_idsOf cs a ha)
      have hkeep₂ : (absentIds rest).filter (fun j => !decide (j = i)) = absentIds rest := by
        rw [List.filter_eq_self]
        intro a ha
        simp only [Bool.not_eq_true', decide_eq_false_iff_not]
        exact fun hh => hirest (hh ▸ absentIds_subset_idsOf rest a ha)
      simp [addChildById, absentIds, absentIdsOfItem, hnoop, newChildItem,
        absentIds_append, List.filter_append, hkeep₁, hkeep₂]
    · simp [addChildById, if_neg hip, absentIds, absentIdsOfItem, ihc hcs, ihr hrest,
        List.filter_append]

/-- Ids after the generic visit-and-rebuild: when the rewrite of a
matched node can only contribute the minted id or the node's own subtree
ids, every id of the result is the minted id or an original id. -/
theorem idsOf_mapById_subset (f : TodoItem → TodoItem) (nid : String) (targetId : String)
    (hf : ∀ x, x.id = targetId → ∀ y ∈ idsOfItem (f x), y = nid ∨ y ∈ idsOfItem x)
    (T : List TodoItem) :
    ∀ x ∈ idsOf (mapById f T targetId), x = nid ∨ x ∈ idsOf T := by
  induction T using forest_ind with
  | h0 => simp [mapById, idsOf]
  | hnone i t d e n rest ihr =>
    intro x hx
    by_cases hip : i = targetId
    · rw [mapById, if_pos hip, idsOf] at hx
      rcases List.mem_append.mp hx with h | h
      · rcases hf _ (by simpa [TodoItem.id] using hip) x h with h' | h'
        · exact Or.inl h'
        · exact Or.inr (by simp only [idsOf]; exact List.mem_append_left _ h')
      · rcases ihr x h with h' | h'
        · exact Or.inl h'
        · exact Or.inr (by simp only [idsOf]; exact List.mem_append_right _ h')
    · rw [mapById, if_neg hip, idsOf] at hx
      rcases List.mem_append.mp hx with h | h
      · exact Or.inr (by simp only [idsOf]; exact List.mem_append_left _ h)
      · rcases ihr x h with h' | h'
        · exact Or.inl h'
        · exact Or.inr (by simp only [idsOf]; exact List.mem_append_right _ h')
  | hsome i t d cs e n rest ihc ihr =>
    intro x hx
    by_cases hip : i = targetId
    · rw [mapById, if_pos hip, idsOf] at hx
      rcases List.mem_append.mp hx with h | h
      · rcases hf _ (by simpa [TodoItem.id] using hip) x h with h' | h'
        · exact Or.inl h'
        · exact Or.inr (by simp only [idsOf]; exact List.mem_append_left _ h')
      · rcases ihr x h with h' | h'
        · exact Or.inl h'
        · exact Or.inr (by simp only [idsOf]; exact List.mem_append_right _ h')
    · rw [mapById, if_neg hip, idsOf] at hx
      rcases List.mem_append.mp hx with h | h
      · simp only [idsOfItem, List.mem_cons] at h
        rcases h with h | h
        · exact Or.inr (by simp [idsOf, idsOfItem, h])
        · rcases ihc x h with h' | h'
          · exact Or.inl h'
          · exact Or.inr (by
              simp only [idsOf, idsOfItem, List.cons_append, List.mem_cons,
                List.mem_append]
              exact Or.inr (Or.inl h'))
      · rcases ihr x h with h' | h'
        · exact Or.inl h'
        · exact Or.inr (by simp only [idsOf]; exact List.mem_append_right _ h')

/-- The child-append rewrite contributes only the minted id beyond the
node's own subtree ids. -/
theorem idsOfItem_addChildRewrite_subset (now : Nat) (targetId : String) (x : TodoItem)
    (hx : x.id = targetId) :
    ∀ y ∈ idsOfItem (addChildRewrite now x), y = newChildId targetId now ∨ y ∈ idsOfItem x := by
  cases x with
  | mk i t d c e n =>
    simp only [TodoItem.id] at hx
    subst hx
    intro y hy
    cases c with
    | none =>
      simp only [addChildRewrite, idsOfItem, Option.getD_none, List.nil_append,
        newChildItem, idsOf, List.mem_cons, List.append_nil, List.not_mem_nil,
        or_false, List.mem_singleton] at hy
      simp only [idsOfItem, List.mem_cons, List.not_mem_nil, or_false]
      tauto
    | some cs =>
      simp only [addChildRewrite, idsOfItem, Option.getD_some, idsOf_append,
        newChildItem, idsOf, List.mem_cons, List.mem_append, List.append_nil,
        List.not_mem_nil, or_false, List.mem_singleton] at hy
      simp only [idsOfItem, List.mem_cons]
      tauto

/-- Every id after addChildById is the freshly minted id or an original
id. -/
theorem idsOf_addChildById_subset (T : List TodoItem) (parentId : String) (now : Nat) :
    ∀ x ∈ idsOf (addChildById T parentId now),
      x = newChildId parentId now ∨ x ∈ idsOf T := by
  rw [addChildById_eq_mapById]
  exact idsOf_mapById_subset _ _ _ (idsOfItem_addChildRewrite_subset now parentId) T

/-- addChildById preserves global id uniqueness provided the minted id is
not already an id of the forest. -/
theorem nodup_idsOf_addChildById (T : List TodoItem) (parentId : String) (now : Nat)
    (h : (idsOf T).Nodup) (hfresh : newChildId parentId now ∉ idsOf T) :
    (idsOf (addChildById T parentId now)).Nodup := by
  induction T using forest_ind with
  | h0 => simp [addChildById, idsOf]
  | hnone i t d e n rest ihr =>
    simp only [idsOf, idsOfItem, List.cons_append, List.nil_append,
      List.nodup_cons] at h
    obtain ⟨hi, hrest⟩ := h
    simp only [idsOf, idsOfItem, List.cons_append, List.nil_append,
      List.mem_cons] at hfresh
    push_neg at hfresh
    obtain ⟨hfi, hfrest⟩ := hfresh
    by_cases hip : i = parentId
    · subst hip
      have hnoop : addChildById rest i now = rest := by
        rw [addChildById_eq_mapById]
        exact mapById_noop _ rest i hi
      rw [addChildById, if_pos rfl, hnoop, idsOf, idsOfItem]
      simp only [Option.getD_none, List.nil_append, idsOf, newChildItem, idsOfItem,
        List.append_nil, List.cons_append, List.nodup_cons, List.mem_cons]
      refine ⟨?_, hfrest, hrest⟩
      push_neg
      exact ⟨fun hh => hfi hh.symm, hi⟩
    · rw [addChildById, if_neg hip, idsOf, idsOfItem]
      simp only [List.cons_append, List.nil_append, List.nodup_cons]
      refine ⟨?_, ihr hrest hfrest⟩
      intro hmem
      rcases idsOf_addChildById_subset rest parentId now i hmem with h' | h'
      · exact hfi h'.symm
      · exact hi h'
  | hsome i t d cs e n rest ihc ihr =>
    simp only [idsOf, idsOfItem] at h
    obtain ⟨hics, hirest, hcs, hrest, hdisj⟩ := nodup_cons_parts h
    simp only [idsOf, idsOfItem, List.cons_append, List.mem_cons,
      List.mem_append] at hfresh
    push_neg at hfresh
    obtain ⟨hfi, hfcs, hfrest⟩ := hfresh
    by_cases hip : i = parentId
    · subst hip
      have hnoop : addChildById rest i now = rest := by
        rw [addChildById_eq_mapById]
        exact mapById_noop _ rest i hirest
      rw [addChildById, if_pos rfl, hnoop, idsOf, idsOfItem]
      simp only [Option.getD_some, idsOf_append, idsOf, newChildItem, idsOfItem,
        List.append_nil, List.cons_append, List.nodup_cons, List.nodup_append,
        List.mem_append, List.mem_cons, List.mem_singleton, List.disjoint_left,
        List.not_mem_nil, or_false, List.nodup_nil]
      constructor
      · push_neg
        refine ⟨⟨hics, fun hh => hfi hh.symm⟩, hirest⟩
      · refine ⟨⟨hcs, ⟨not_false, trivial⟩, ?_⟩, hrest, ?_⟩
        · intro a ha
          exact fun hh => hfcs (hh ▸ ha)
        · intro a ha
          rcases ha with ha | ha
          · exact hdisj a ha
          · exact fun hr => hfrest (ha ▸ hr)
    · rw [addChildById, if_neg hip, idsOf, idsOfItem]
      by_cases hpcs : parentId ∈ idsOf cs
      · have hprest : parentId ∉ idsOf rest := hdisj parentId hpcs
        have hnoop : addChildById rest parentId now = rest := by
          rw [addChildById_eq_mapById]
          exact mapById_noop _ rest parentId hprest
        rw [hnoop]
        simp only [List.cons_append, List.nodup_cons, List.nodup_append,
          List.mem_append, List.disjoint_left]
        have hsub := idsOf_addChildById_subset cs parentId now
        refine ⟨?_, ihc hcs hfcs, hrest, ?_⟩
        · push_neg
          constructor
          · intro hmem
            rcases hsub i hmem with h' | h'
            · exact hfi h'.symm
            · exact hics h'
          · exact hirest
        · intro a ha
          rcases hsub a ha with h' | h'
          · exact fun hr => hfrest (h' ▸ hr)
          · exact hdisj a h'
      · have hnoop : addChildById cs parentId now = cs := by
          rw [addChildById_eq_mapById]
          exact mapById_noop _ cs parentId hpcs
        rw [hnoop]
        simp only [List.cons_append, List.nodup_cons, List.nodup_append,
          List.mem_append, List.disjoint_left]
        have hsub := idsOf_addChildById_subset rest parentId now
        refine ⟨?_, hcs, ihr hrest hfrest, ?_⟩
        · push_neg
          constructor
          · exact hics
          · intro hmem
            rcases hsub i hmem with h' | h'
            · exact hfi h'.symm
            · exact hirest h'
        · intro a ha hmem
          rcases hsub a hmem with h' | h'
          · exact hfcs (h' ▸ ha)
          · exact hdisj a ha h'

/-- handleAddTask preserves global id uniqueness provided the minted id
is not already an id of the forest. -/
theorem nodup_idsOf_handleAddTask (T : List TodoItem) (rawText : String) (now : Nat)
    (h : (idsOf T).Nodup) (hfresh : ("task-" ++ toString now) ∉ idsOf T) :
    (idsOf (handleAddTask T rawText now)).Nodup := by
  rw [handleAddTask]
  by_cases he : rawText.trim = ""
  · rw [if_pos he]; exact h
  · rw [if_neg he, idsOf_append]
    simp only [idsOf, idsOfItem, List.append_nil, List.nodup_append,
      List.nodup_cons, List.not_mem_nil, not_false_iff, List.nodup_nil,
      List.disjoint_left, true_and]
    refine ⟨h, ?_⟩
    intro a ha
    simp only [List.mem_cons, List.not_mem_nil, or_false, List.mem_singleton]
    exact fun hh => hfresh (hh ▸ ha)

/-- Root index lookups return an index holding a root node with the
searched id. -/
theorem findIndexById_some_getElem (target : String) :
    ∀ (l : List TodoItem) (i : Nat), findIndexById l target = some i →
      ∃ x, l[i]? = some x ∧ x.id = target := by
  intro l
  induction l with
  | nil => intro i h; simp [findIndexById] at h
  | cons x xs ih =>
    intro i h
    rw [findIndexById] at h
    by_cases hp : x.id = target
    · rw [if_pos hp] at h
      cases h
      exact ⟨x, by simp, hp⟩
    · rw [if_neg hp, Option.map_eq_some'] at h
      obtain ⟨j, hj, rfl⟩ := h
      obtain ⟨y, hy, hid⟩ := ih j hj
      exact ⟨y, by simpa using hy, hid⟩

/-- A forest is a permutation of any one of its elements consed onto the
forest with that element's position erased. -/
theorem perm_cons_eraseIdx : ∀ (l : List TodoItem) (i : Nat) (x : TodoItem),
    l[i]? = some x → l.Perm (x :: l.eraseIdx i)
  | [], i, x, h => by simp at h
  | y :: tl, 0, x, h => by
    simp at h
    subst h
    simp [List.eraseIdx]
  | y :: tl, i + 1, x, h => by
    simp at h
    have h1 := perm_cons_eraseIdx tl i x h
    have h2 : (y :: tl).Perm (y :: x :: tl.eraseIdx i) := h1.cons y
    have h3 : (y :: x :: tl.eraseIdx i).Perm (x :: y :: tl.eraseIdx i) :=
      List.Perm.swap x y (tl.eraseIdx i)
    simpa [List.eraseIdx] using h2.trans h3

/-- Inserting an element at any in-range position is a permutation of
consing it. -/
theorem perm_insertIdx : ∀ (l : List TodoItem) (j : Nat) (x : TodoItem),
    j ≤ l.length → (l.insertIdx j x).Perm (x :: l)
  | _, 0, _, _ => by simp
  | [], _ + 1, _, h => by simp at h
  | y :: tl, j + 1, x, h => by
    simp only [List.insertIdx_succ_cons]
    have h1 : (tl.insertIdx j x).Perm (x :: tl) :=
      perm_insertIdx tl j x (by simpa using h)
    have h2 : (y :: tl.insertIdx j x).Perm (y :: x :: tl) := h1.cons y
    have h3 : (y :: x :: tl).Perm (x :: y :: tl) := List.Perm.swap x y tl
    exact h2.trans h3

/-- arrayMove permutes the root list whenever the source index is in
range and the target index is in range of the shortened list. -/
theorem perm_arrayMove (l : List TodoItem) (i j : Nat) (x : TodoItem)
    (hx : l[i]? = some x) (hj : j ≤ (l.eraseIdx i).length) :
    (arrayMove l i j).Perm l := by
  rw [arrayMove, hx]
  have h1 := perm_insertIdx (l.eraseIdx i) j x hj
  have h2 := perm_cons_eraseIdx l i x hx
  exact h1.trans h2.symm

/-- The pre-order id list is the flat map of per-node id lists. -/
theorem idsOf_eq_flatMap : ∀ l : List TodoItem, idsOf l = l.flatMap idsOfItem
  | [] => by simp [idsOf]
  | x :: rest => by
    simp [idsOf, List.flatMap_cons, idsOf_eq_flatMap rest]

/-- Permuting the root list permutes the pre-order id list. -/
theorem idsOf_perm_of_perm {l₁ l₂ : List TodoItem} (h : l₁.Perm l₂) :
    (idsOf l₁).Perm (idsOf l₂) := by
  rw [idsOf_eq_flatMap, idsOf_eq_flatMap]
  exact h.flatMap_right idsOfItem

/-- handleDragEnd preserves global id uniqueness, for every drop
outcome. -/
theorem nodup_idsOf_handleDragEnd (T : List TodoItem) (activeId : String)
    (over : Option String) (h : (idsOf T).Nodup) :
    (idsOf (handleDragEnd T activeId over)).Nodup := by
  cases over with
  | none => rw [handleDragEnd]; exact h
  | some overId =>
    rw [handleDragEnd]
    by_cases hdz : overId = "delete-zone"
    · rw [if_pos hdz]
      rw [deleteItemById_eq_normalize_removeAll, idsOf_normalizeChildren]
      exact h.sublist (idsOf_removeAllById_sublist T activeId)
    · rw [if_neg hdz]
      by_cases heq : activeId = overId
      · rw [if_pos heq]; exact h
      · rw [if_neg heq]
        cases ho : findIndexById T activeId with
        | none => exact h
        | some oldIndex =>
          cases hn : findIndexById T overId with
          | none => exact h
          | some newIndex =>
            obtain ⟨x, hx, _⟩ := findIndexById_some_getElem activeId T oldIndex ho
            obtain ⟨y, hy, _⟩ := findIndexById_some_getElem overId T newIndex hn
            have hilt : oldIndex < T.length := by
              by_contra hge
              rw [List.getElem?_eq_none (Nat.le_of_not_lt hge)] at hx
              cases hx
            have hjlt : newIndex < T.length := by
              by_contra hge
              rw [List.getElem?_eq_none (Nat.le_of_not_lt hge)] at hy
              cases hy
            have hlen : (T.eraseIdx oldIndex).length = T.length - 1 := by
              rw [List.length_eraseIdx]
              simp [hilt]
            have hperm := perm_arrayMove T oldIndex newIndex x hx
              (by rw [hlen]; omega)
            exact ((idsOf_perm_of_perm hperm).nodup_iff).mpr h


/-- An id is outside a subtree exactly when it is none of the subtree's
ids. -/
theorem outsideSubtree_eq_true_iff (found : TodoItem) (j : String) :
    outsideSubtree found j = true ↔ j ∉ idsOfItem found := by
  simp [outsideSubtree]

/-- Filtering by a subtree drops nothing when no element is a subtree
id. -/
theorem filter_outside_keep (l : List String) (found : TodoItem)
    (h : ∀ a ∈ l, a ∉ idsOfItem found) : l.filter (outsideSubtree found) = l :=
  List.filter_eq_self.mpr (fun a ha => (outsideSubtree_eq_true_iff found a).mpr (h a ha))

/-- Filtering by a subtree drops everything when every element is a
subtree id. -/
theorem filter_outside_drop (l : List String) (found : TodoItem)
    (h : ∀ a ∈ l, a ∈ idsOfItem found) : l.filter (outsideSubtree found) = [] :=
  List.filter_eq_nil_iff.mpr
    (fun a ha hx => ((outsideSubtree_eq_true_iff found a).mp hx) (h a ha))

/-- On a forest with unique ids, pure subtree removal of a found id keeps
exactly the ids outside the found node's subtree, in their original
pre-order. -/
theorem idsOf_removeAllById_found (T : List TodoItem) (targetId : String)
    (found : TodoItem) (hnd : (idsOf T).Nodup)
    (hf : findItemById T targetId = some found) :
    idsOf (removeAllById T targetId) = (idsOf T).filter (outsideSubtree found) := by
  induction T using forest_ind generalizing found with
  | h0 => simp [findItemById] at hf
  | hnone i t d e n rest ihr =>
    have hids : idsOf (TodoItem.mk i t d none e n :: rest) = i :: idsOf rest := by
      simp [idsOf, idsOfItem]
    rw [hids] at hnd
    rw [List.nodup_cons] at hnd
    obtain ⟨hi, hrest⟩ := hnd
    rw [findItemById] at hf
    by_cases hit : i = targetId
    · rw [if_pos hit] at hf
      cases hf
      subst hit
      rw [removeAllById, if_pos rfl, removeAllById_noop rest i hi, hids,
        List.filter_cons]
      have hd : outsideSubtree (TodoItem.mk i t d none e n) i = false := by
        simp [outsideSubtree, idsOfItem]
      rw [hd]
      simp only [Bool.false_eq_true, if_false]
      refine (filter_outside_keep _ _ ?_).symm
      intro a ha
      simp only [idsOfItem, List.mem_cons, List.not_mem_nil, or_false]
      exact fun hh => hi (hh ▸ ha)
    · rw [if_neg hit] at hf
      obtain ⟨hid, hsub⟩ := findItemById_some_spec rest targetId found hf
      have hlhs : idsOf (removeAllById (TodoItem.mk i t d none e n :: rest) targetId)
          = i :: idsOf (removeAllById rest targetId) := by
        rw [removeAllById, if_neg hit]
        simp [idsOf, idsOfItem]
      rw [hlhs, hids, List.filter_cons]
      have hk : outsideSubtree found i = true := by
        rw [outsideSubtree_eq_true_iff]
        exact fun hh => hi (hsub i hh)
      rw [hk]
      simp only [if_true]
      rw [ihr found hrest hf]
  | hsome i t d cs e n rest ihc ihr =>
    have hids : idsOf (TodoItem.mk i t d (some cs) e n :: rest)
        = (i :: idsOf cs) ++ idsOf rest := by
      simp [idsOf, idsOfItem]
    rw [hids] at hnd
    obtain ⟨hics, hirest, hcs, hrest, hdisj⟩ := nodup_cons_parts hnd
    rw [findItemById] at hf
    by_cases hit : i = targetId
    · rw [if_pos hit] at hf
      cases hf
      subst hit
      rw [removeAllById, if_pos rfl, removeAllById_noop rest i hirest, hids,
        List.filter_append]
      have hdrop : (i :: idsOf cs).filter
          (outsideSubtree (TodoItem.mk i t d (some cs) e n)) = [] := by
        apply filter_outside_drop
        intro a ha
        simpa [idsOfItem] using ha
      have hkeep : (idsOf rest).filter
          (outsideSubtree (TodoItem.mk i t d (some cs) e n)) = idsOf rest := by
        apply filter_outside_keep
        intro a ha
        simp only [idsOfItem, List.mem_cons]
        push_neg
        exact ⟨fun hh => hirest (hh ▸ ha), fun hh => hdisj a hh ha⟩
      rw [hdrop, hkeep, List.nil_append]
    · rw [if_neg hit] at hf
      cases hfc : findItemById cs targetId with
      | some f =>
        rw [hfc] at hf
        cases hf
        obtain ⟨hid, hsub⟩ := findItemById_some_spec cs targetId found hfc
        have htcs : targetId ∈ idsOf cs := by
          by_contra hc
          rw [(findItemById_eq_none_iff cs targetId).mpr hc] at hfc
          cases hfc
        have htrest : targetId ∉ idsOf rest := hdisj targetId htcs
        have hlhs : idsOf (removeAllById (TodoItem.mk i t d (some cs) e n :: rest) targetId)
            = (i :: idsOf (removeAllById cs targetId)) ++ idsOf rest := by
          rw [removeAllById, if_neg hit, removeAllById_noop rest targetId htrest]
          simp [idsOf, idsOfItem]
        rw [hlhs, hids, List.filter_append, List.filter_cons]
        have hki : outsideSubtree found i = true := by
          rw [outsideSubtree_eq_true_iff]
          exact fun hh => hics (hsub i hh)
        have hkr : (idsOf rest).filter (outsideSubtree found) = idsOf rest := by
          apply filter_outside_keep
          intro a ha
          exact fun hh => hdisj a (hsub a hh) ha
        rw [hki, ihc found hcs hfc, hkr]
        simp
      | none =>
        rw [hfc] at hf
        obtain ⟨hid, hsub⟩ := findItemById_some_spec rest targetId found hf
        have htcs : targetId ∉ idsOf cs := (findItemById_eq_none_iff cs targetId).mp hfc
        have hlhs : idsOf (removeAllById (TodoItem.mk i t d (some cs) e n :: rest) targetId)
            = (i :: idsOf cs) ++ idsOf (removeAllById rest targetId) := by
          rw [removeAllById, if_neg hit, removeAllById_noop cs targetId htcs]
          simp [idsOf, idsOfItem]
        rw [hlhs, hids, List.filter_append, List.filter_cons]
        have hki : outsideSubtree found i = true := by
          rw [outsideSubtree_eq_true_iff]
          exact fun hh => hirest (hsub i hh)
        have hkc : (idsOf cs).filter (outsideSubtree found) = idsOf cs := by
          apply filter_outside_keep
          intro a ha
          exact fun hh => hdisj a ha (hsub a hh)
        rw [hki, hkc, ihr found hrest hf]
        simp

/-- On a forest with unique ids, deleting a found id keeps exactly the
ids outside the found node's subtree, in their original pre-order. -/
theorem idsOf_deleteItemById_found (T : List TodoItem) (targetId : String)
    (found : TodoItem) (hnd : (idsOf T).Nodup)
    (hf : findItemById T targetId = some found) :
    idsOf (deleteItemById T targetId) = (idsOf T).filter (outsideSubtree found) := by
  rw [deleteItemById_eq_normalize_removeAll, idsOf_normalizeChildren]
  exact idsOf_removeAllById_found T targetId found hnd hf

/-- Specialization of handleDragEnd to a reorder drop: both ids resolve
at root level, the target is not the delete zone, and the ids differ. -/
theorem handleDragEnd_reorder (T : List TodoItem) (fromId toId : String)
    (oldIndex newIndex : Nat) (hdz : toId ≠ "delete-zone") (hne : fromId ≠ toId)
    (ho : findIndexById T fromId = some oldIndex)
    (hn : findIndexById T toId = some newIndex) :
    handleDragEnd T fromId (some toId) = arrayMove T oldIndex newIndex := by
  rw [handleDragEnd, if_neg hdz, if_neg hne, ho, hn]

/-- Specialization of handleDragEnd to a drop whose source or target id
is not a root-level id: no reorder happens. -/
theorem handleDragEnd_not_root (T : List TodoItem) (fromId toId : String)
    (hdz : toId ≠ "delete-zone") (hne : fromId ≠ toId)
    (h : findIndexById T fromId = none ∨ findIndexById T toId = none) :
    handleDragEnd T fromId (some toId) = T := by
  rw [handleDragEnd, if_neg hdz, if_neg hne]
  rcases h with h | h
  · rw [h]
  · rw [h]
    cases findIndexById T fromId <;> rfl

/-- The moved element sits at the target index after arrayMove. -/
theorem arrayMove_getElem_self (l : List TodoItem) (i j : Nat) (x : TodoItem)
    (hx : l[i]? = some x) (hj : j ≤ (l.eraseIdx i).length) :
    (arrayMove l i j)[j]? = some x := by
  rw [arrayMove, hx]
  have hlt : j < ((l.eraseIdx i).insertIdx j x).length := by
    rw [List.length_insertIdx _ _ hj]
    omega
  rw [List.getElem?_eq_getElem hlt]
  rw [List.getElem_insertIdx_self _ x j hj]

/-- The Boolean allDone flag unfolded into its two arithmetic
conditions. -/
theorem allDone_eq_true_iff (T : List TodoItem) :
    allDone T = true ↔
      0 < (countAllItems T).total ∧ (countAllItems T).done = (countAllItems T).total := by
  simp [allDone]

/-- The pre-order id list of the seed tree, evaluated. -/
theorem idsOf_initialItems :
    idsOf initialItems = ["1", "2", "2-1", "2-2", "3", "4", "5", "5-1", "6"] := by
  simp [initialItems, idsOf, idsOfItem]

/-- The seed tree has globally unique ids. -/
theorem nodup_idsOf_initialItems : (idsOf initialItems).Nodup := by
  rw [idsOf_initialItems]
  decide

/-- C1 counterexample: on the literal seed data, countProgress does not
return done = 2 — root task "5" is itself done, so the done count is 3. -/
theorem c1_counterexample : (countAllItems initialItems).done ≠ 2 := by
  have h : countAllItems initialItems = ⟨9, 3⟩ := by
    simp [initialItems, countAllItems]
  rw [h]
  decide

/-- C1 (amended): for the literal seed tree, countProgress returns
total = 9 and done = 3, the done nodes being exactly "2-1", "5" and
"5-1" — the root task "5" is among them. -/
theorem c1_seed_progress :
    countAllItems initialItems = ⟨9, 3⟩ ∧
    doneIds initialItems = ["2-1", "5", "5-1"] := by
  constructor
  · simp [initialItems, countAllItems]
  · simp [initialItems, doneIds, doneIdsOfItem]

/-- C2 counterexample: deleteItemById on a missing id is not structurally
the identity on every tree — a node whose children field is absent comes
back with an explicit empty children list. -/
theorem c2_counterexample :
    "z" ∉ idsOf [TodoItem.mk "a" "x" false none none none] ∧
    deleteItemById [TodoItem.mk "a" "x" false none none none] "z"
      ≠ [TodoItem.mk "a" "x" false none none none] := by
  constructor
  · simp [idsOf, idsOfItem]
  · intro hEq
    have h := congrArg absentIds hEq
    simp [deleteItemById, absentIds, absentIdsOfItem] at h

/-- C2 (amended): for an id that does not occur in the tree, toggleDone,
setExpanded, addChild and setNotes return the tree unchanged; deleteNode
returns the tree with absent children fields normalized to explicit empty
lists, which is the unchanged tree whenever every node already carries an
explicit children list.  All five operations are total, so none can
signal an error. -/
theorem c2_missing_id_noop (T : List TodoItem) (i : String) (h : i ∉ idsOf T) :
    toggleItemById T i = T ∧ toggleExpandById T i = T ∧
    (∀ now, addChildById T i now = T) ∧ (∀ s, updateItemNotes T i s = T) ∧
    deleteItemById T i = normalizeChildren T ∧
    (allChildrenSome T = true → deleteItemById T i = T) := by
  refine ⟨?_, ?_, ?_, ?_, ?_, ?_⟩
  · rw [toggleItemById_eq_mapById]
    exact mapById_noop _ T i h
  · rw [toggleExpandById_eq_mapById]
    exact mapById_noop _ T i h
  · intro now
    rw [addChildById_eq_mapById]
    exact mapById_noop _ T i h
  · intro s
    rw [updateItemNotes_eq_mapById]
    exact mapById_noop _ T i h
  · exact deleteItemById_of_missing T i h
  · intro hs
    rw [deleteItemById_of_missing T i h, normalizeChildren_eq_self T hs]

/-- C2 witness: the operations at the absent id "zzz" on the seed tree. -/
theorem c2_missing_id_noop_witness :
    toggleItemById initialItems "zzz" = initialItems ∧
    toggleExpandById initialItems "zzz" = initialItems ∧
    (∀ now, addChildById initialItems "zzz" now = initialItems) ∧
    (∀ s, updateItemNotes initialItems "zzz" s = initialItems) ∧
    deleteItemById initialItems "zzz" = normalizeChildren initialItems ∧
    (allChildrenSome initialItems = true → deleteItemById initialItems "zzz" = initialItems) :=
  c2_missing_id_noop initialItems "zzz" (by rw [idsOf_initialItems]; decide)

/-- C3 counterexample: a reachable tree with a duplicated id.  The fresh
id is `${parentId}-${Date.now()}`, so addChild on node "2" at
`Date.now() = 1` mints "2-1", which the seed tree already contains; the
same collision arises whenever two mints observe the same millisecond
timestamp. -/
theorem c3_counterexample :
    Reachable (addChildById initialItems "2" 1) ∧
    ¬ (idsOf (addChildById initialItems "2" 1)).Nodup := by
  constructor
  · exact Reachable.addChild "2" 1 Reachable.seed
  · have hid : newChildId "2" 1 = "2-1" := rfl
    have h : idsOf (addChildById initialItems "2" 1)
        = ["1", "2", "2-1", "2-2", "2-1", "3", "4", "5", "5-1", "6"] := by
      simp [initialItems, addChildById, idsOf, idsOfItem, newChildItem, hid,
        idsOf_append]
    rw [h]
    decide

/-- C3 (amended): the seed tree has globally unique ids, and every
operation preserves global id uniqueness provided each freshly minted id
(derived from the timestamp observed at that step) does not already occur
in the tree; mints that reuse a timestamp can collide, so uniqueness is
not unconditional. -/
theorem c3_unique_ids :
    (idsOf initialItems).Nodup ∧
    (∀ T i, (idsOf T).Nodup → (idsOf (toggleItemById T i)).Nodup) ∧
    (∀ T i, (idsOf T).Nodup → (idsOf (toggleExpandById T i)).Nodup) ∧
    (∀ T i s, (idsOf T).Nodup → (idsOf (updateItemNotes T i s)).Nodup) ∧
    (∀ T i, (idsOf T).Nodup → (idsOf (deleteItemById T i)).Nodup) ∧
    (∀ T a o, (idsOf T).Nodup → (idsOf (handleDragEnd T a o)).Nodup) ∧
    (∀ T p now, (idsOf T).Nodup → newChildId p now ∉ idsOf T →
      (idsOf (addChildById T p now)).Nodup) ∧
    (∀ T txt now, (idsOf T).Nodup → ("task-" ++ toString now) ∉ idsOf T →
      (idsOf (handleAddTask T txt now)).Nodup) := by
  refine ⟨nodup_idsOf_initialItems, ?_, ?_, ?_, ?_, ?_, ?_, ?_⟩
  · intro T i h
    rwa [idsOf_toggleItemById]
  · intro T i h
    rwa [idsOf_toggleExpandById]
  · intro T i s h
    rwa [idsOf_updateItemNotes]
  · intro T i h
    rw [deleteItemById_eq_normalize_removeAll, idsOf_normalizeChildren]
    exact h.sublist (idsOf_removeAllById_sublist T i)
  · intro T a o h
    exact nodup_idsOf_handleDragEnd T a o h
  · intro T p now h hfresh
    exact nodup_idsOf_addChildById T p now h hfresh
  · intro T txt now h hfresh
    exact nodup_idsOf_handleAddTask T txt now h hfresh

/-- C3 witness: uniqueness preserved on the seed by a toggle and by an
addChild whose minted id "2-999" is fresh. -/
theorem c3_unique_ids_witness :
    (idsOf (toggleItemById initialItems "1")).Nodup ∧
    (idsOf (addChildById initialItems "2" 999)).Nodup :=
  ⟨c3_unique_ids.2.1 initialItems "1" nodup_idsOf_initialItems,
   c3_unique_ids.2.2.2.2.2.2.1 initialItems "2" 999 nodup_idsOf_initialItems
     (by rw [idsOf_initialItems]
         have h : newChildId "2" 999 = "2-999" := rfl
         rw [h]
         decide)⟩

/-- C4 counterexample: on the empty tree every node is vacuously done and
the done count equals the total count, yet allDone is false, because the
code additionally requires `counts.total > 0`. -/
theorem c4_counterexample :
    allDone ([] : List TodoItem) = false ∧
    allNodesDone ([] : List TodoItem) = true ∧
    (countAllItems ([] : List TodoItem)).done = (countAllItems ([] : List TodoItem)).total := by
  refine ⟨?_, ?_, ?_⟩
  · simp [allDone, countAllItems]
  · simp [allNodesDone]
  · simp [countAllItems]

/-- C4 (amended): for every nonempty tree, ALL_DONE holds exactly when
every node at every depth is done, equivalently exactly when the done
count equals the total count; the empty tree is never ALL_DONE. -/
theorem c4_all_done_iff (T : List TodoItem) (h : T ≠ []) :
    (allDone T = true ↔ allNodesDone T = true) ∧
    (allDone T = true ↔ (countAllItems T).done = (countAllItems T).total) := by
  have hpos := countAllItems_total_pos T h
  constructor
  · rw [allDone_eq_true_iff, allNodesDone_iff_counts]
    exact ⟨fun hh => hh.2, fun hh => ⟨hpos, hh⟩⟩
  · rw [allDone_eq_true_iff]
    exact ⟨fun hh => hh.2, fun hh => ⟨hpos, hh⟩⟩

/-- C4 witness: the characterization instantiated at the (nonempty) seed
tree. -/
theorem c4_all_done_iff_witness :
    (allDone initialItems = true ↔ allNodesDone initialItems = true) ∧
    (allDone initialItems = true ↔
      (countAllItems initialItems).done = (countAllItems initialItems).total) :=
  c4_all_done_iff initialItems (by simp [initialItems])

/-- C5: on a tree with unique ids, deleting a found id keeps exactly the
ids outside the found node's subtree in their original pre-order (so
every node outside the subtree survives with sibling order preserved),
and neither the deleted id nor any id of its subtree remains. -/
theorem c5_delete_subtree (T : List TodoItem) (i : String) (found : TodoItem)
    (hnd : (idsOf T).Nodup) (hf : findItemById T i = some found) :
    idsOf (deleteItemById T i) = (idsOf T).filter (outsideSubtree found) ∧
    i ∉ idsOf (deleteItemById T i) ∧
    (∀ x ∈ idsOfItem found, x ∉ idsOf (deleteItemById T i)) := by
  refine ⟨idsOf_deleteItemById_found T i found hnd hf,
    not_mem_idsOf_deleteItemById T i, ?_⟩
  intro x hx hmem
  rw [idsOf_deleteItemById_found T i found hnd hf] at hmem
  exact (outsideSubtree_eq_true_iff found x).mp (List.of_mem_filter hmem) hx

/-- C5 witness: deleting node "5-1" from the seed tree. -/
theorem c5_delete_subtree_witness :
    idsOf (deleteItemById initialItems "5-1")
      = (idsOf initialItems).filter
          (outsideSubtree (TodoItem.mk "5-1" "Clean up unused styles" true (some []) none none)) ∧
    "5-1" ∉ idsOf (deleteItemById initialItems "5-1") ∧
    (∀ x ∈ idsOfItem (TodoItem.mk "5-1" "Clean up unused styles" true (some []) none none),
      x ∉ idsOf (deleteItemById initialItems "5-1")) :=
  c5_delete_subtree initialItems "5-1"
    (TodoItem.mk "5-1" "Clean up unused styles" true (some []) none none)
    nodup_idsOf_initialItems
    (by simp [initialItems, findItemById])

/-- C6: on a tree with unique ids, addChildById is exactly the
first-occurrence rewrite that appends the fresh child to the matched
node's children and forces its expanded flag, leaving every other node
untouched; on a missing parent id it is the identity, and at the matched
node the rewrite appends exactly one child (fresh id, done false, empty
children, expanded true) and changes no other field. -/
theorem c6_add_child_frame (T : List TodoItem) (p : String) (now : Nat)
    (h : (idsOf T).Nodup) :
    addChildById T p now = (replaceFirstById T p (addChildRewrite now)).getD T ∧
    (p ∉ idsOf T → addChildById T p now = T) ∧
    (∀ x, x.id = p →
      (addChildRewrite now x).children = some (x.children.getD [] ++ [newChildItem p now]) ∧
      ((addChildRewrite now x).children.getD []).length
        = (x.children.getD []).length + 1 ∧
      (addChildRewrite now x).expanded = some true ∧
      (addChildRewrite now x).id = x.id ∧ (addChildRewrite now x).text = x.text ∧
      (addChildRewrite now x).done = x.done ∧
      (addChildRewrite now x).notes = x.notes) := by
  refine ⟨?_, ?_, ?_⟩
  · rw [addChildById_eq_mapById]
    exact mapById_eq_replaceFirst _ T p h
  · intro hp
    rw [addChildById_eq_mapById]
    exact mapById_noop _ T p hp
  · intro x hx
    cases x with
    | mk i t d c e n =>
      simp only [TodoItem.id] at hx
      subst hx
      simp [addChildRewrite, TodoItem.children, TodoItem.expanded, TodoItem.id,
        TodoItem.text, TodoItem.done, TodoItem.notes]

/-- C6 witness: adding a child to node "2" of the seed tree. -/
theorem c6_add_child_frame_witness :
    addChildById initialItems "2" 999
      = (replaceFirstById initialItems "2" (addChildRewrite 999)).getD initialItems ∧
    ("2" ∉ idsOf initialItems → addChildById initialItems "2" 999 = initialItems) ∧
    (∀ x, x.id = "2" →
      (addChildRewrite 999 x).children
        = some (x.children.getD [] ++ [newChildItem "2" 999]) ∧
      ((addChildRewrite 999 x).children.getD []).length
        = (x.children.getD []).length + 1 ∧
      (addChildRewrite 999 x).expanded = some true ∧
      (addChildRewrite 999 x).id = x.id ∧ (addChildRewrite 999 x).text = x.text ∧
      (addChildRewrite 999 x).done = x.done ∧
      (addChildRewrite 999 x).notes = x.notes) :=
  c6_add_child_frame initialItems "2" 999 nodup_idsOf_initialItems

/-- C7: toggling a present id twice restores the tree exactly, and (on a
tree with unique ids) a single toggle is the first-occurrence rewrite
that flips done on the matched node only, leaving its children and every
other node untouched. -/
theorem c7_toggle_involutive (T : List TodoItem) (i : String) (_hp : i ∈ idsOf T) :
    toggleItemById (toggleItemById T i) i = T ∧
    ((idsOf T).Nodup →
      toggleItemById T i = (replaceFirstById T i flipDone).getD T) := by
  refine ⟨toggleItemById_toggleItemById T i, fun h => ?_⟩
  rw [toggleItemById_eq_mapById]
  exact mapById_eq_replaceFirst _ T i h

/-- C7 witness: toggling child "2-2" of the seed tree. -/
theorem c7_toggle_involutive_witness :
    toggleItemById (toggleItemById initialItems "2-2") "2-2" = initialItems ∧
    ((idsOf initialItems).Nodup →
      toggleItemById initialItems "2-2"
        = (replaceFirstById initialItems "2-2" flipDone).getD initialItems) :=
  c7_toggle_involutive initialItems "2-2" (by rw [idsOf_initialItems]; decide)

/-- C8: when both drag ids resolve to distinct root positions (and the
target is not the delete zone), handleDragEnd yields the root sequence
with the dragged element removed from its position and re-inserted at the
target's position — a permutation of the original roots, each moved as a
whole node with its subtree intact, the moved node sitting at the target
index; when either id is not a root-level id, no reorder happens. -/
theorem c8_root_reorder (T : List TodoItem) (fromId toId : String)
    (oldIndex newIndex : Nat) (moved : TodoItem)
    (hdz : toId ≠ "delete-zone") (hne : fromId ≠ toId)
    (ho : findIndexById T fromId = some oldIndex)
    (hn : findIndexById T toId = some newIndex)
    (hm : T[oldIndex]? = some moved) :
    handleDragEnd T fromId (some toId)
      = (T.eraseIdx oldIndex).insertIdx newIndex moved ∧
    (handleDragEnd T fromId (some toId)).Perm T ∧
    (handleDragEnd T fromId (some toId))[newIndex]? = some moved ∧
    (∀ a o, a ≠ o → o ≠ "delete-zone" →
      (findIndexById T a = none ∨ findIndexById T o = none) →
      handleDragEnd T a (some o) = T) := by
  obtain ⟨y, hy, _⟩ := findIndexById_some_getElem toId T newIndex hn
  have hjlt : newIndex < T.length := by
    by_contra hge
    rw [List.getElem?_eq_none (Nat.le_of_not_lt hge)] at hy
    cases hy
  have hilt : oldIndex < T.length := by
    by_contra hge
    rw [List.getElem?_eq_none (Nat.le_of_not_lt hge)] at hm
    cases hm
  have hlen : (T.eraseIdx oldIndex).length = T.length - 1 := by
    rw [List.length_eraseIdx]
    simp [hilt]
  have hj : newIndex ≤ (T.eraseIdx oldIndex).length := by
    rw [hlen]
    omega
  have hre := handleDragEnd_reorder T fromId toId oldIndex newIndex hdz hne ho hn
  refine ⟨?_, ?_, ?_, ?_⟩
  · rw [hre]
    simp only [arrayMove, hm]
  · rw [hre]
    exact perm_arrayMove T oldIndex newIndex moved hm hj
  · rw [hre]
    exact arrayMove_getElem_self T oldIndex newIndex moved hm hj
  · intro a o hao hodz hmiss
    exact handleDragEnd_not_root T a o hodz hao hmiss

/-- C8 witness: moving root "1" to the position of root "6" in the seed
tree. -/
theorem c8_root_reorder_witness :
    handleDragEnd initialItems "1" (some "6")
      = (initialItems.eraseIdx 0).insertIdx 5
          (TodoItem.mk "1" "Review Calendar PR (React/TS)" false (some []) (some true) none) ∧
    (handleDragEnd initialItems "1" (some "6")).Perm initialItems ∧
    (handleDragEnd initialItems "1" (some "6"))[5]?
      = some (TodoItem.mk "1" "Review Calendar PR (React/TS)" false (some []) (some true) none) ∧
    (∀ a o, a ≠ o → o ≠ "delete-zone" →
      (findIndexById initialItems a = none ∨ findIndexById initialItems o = none) →
      handleDragEnd initialItems a (some o) = initialItems) :=
  c8_root_reorder initialItems "1" "6" 0 5
    (TodoItem.mk "1" "Review Calendar PR (React/TS)" false (some []) (some true) none)
    (by decide) (by decide) (by rfl) (by rfl) (by rfl)

/-- C9: deleteItemById is idempotent — after one deletion the id is gone
and every remaining node carries an explicit children list, so a second
deletion with the same id changes nothing. -/
theorem c9_delete_idempotent (T : List TodoItem) (i : String) :
    deleteItemById (deleteItemById T i) i = deleteItemById T i := by
  rw [deleteItemById_of_missing _ i (not_mem_idsOf_deleteItemById T i),
    normalizeChildren_eq_self _ (allChildrenSome_deleteItemById T i)]

/-- C10: deleteItemById normalizes the children field — its output always
carries an explicit children sequence on every node, and it is exactly
pure subtree removal followed by replacing absent children fields with
explicit empty ones — whereas toggleDone, setExpanded and setNotes
preserve the set of nodes with an absent children field exactly, and
addChild (on a tree with unique ids) removes precisely its target from
that set, leaving every other node's children presence untouched. -/
theorem c10_delete_normalizes :
    (∀ T i, allChildrenSome (deleteItemById T i) = true) ∧
    (∀ T i, deleteItemById T i = normalizeChildren (removeAllById T i)) ∧
    (∀ T i, absentIds (toggleItemById T i) = absentIds T) ∧
    (∀ T i, absentIds (toggleExpandById T i) = absentIds T) ∧
    (∀ T i s, absentIds (updateItemNotes T i s) = absentIds T) ∧
    (∀ T p now, (idsOf T).Nodup →
      absentIds (addChildById T p now)
        = (absentIds T).filter (fun j => !decide (j = p))) := by
  refine ⟨allChildrenSome_deleteItemById, deleteItemById_eq_normalize_removeAll,
    ?_, ?_, ?_, ?_⟩
  · intro T i
    rw [toggleItemById_eq_mapById]
    exact absentIds_mapById _ absentIdsOfItem_flipDone T i
  · intro T i
    rw [toggleExpandById_eq_mapById]
    exact absentIds_mapById _ absentIdsOfItem_flipExpanded T i
  · intro T i s
    rw [updateItemNotes_eq_mapById]
    exact absentIds_mapById _ (absentIdsOfItem_setNotesRewrite s) T i
  · intro T p now h
    exact absentIds_addChildById T p now h

/-- C10 witness: the addChild part instantiated on the seed tree. -/
theorem c10_delete_normalizes_witness :
    absentIds (addChildById initialItems "2" 999)
      = (absentIds initialItems).filter (fun j => !decide (j = "2")) :=
  c10_delete_normalizes.2.2.2.2.2 initialItems "2" 999 nodup_idsOf_initialItems
